import Mathlib

/-!
Verification development for the stardict library: a shallow embedding of
its core data model and operations (UTF-8 lossy text decoding, `.dict`
block decoding, the `.idx`/`.syn` index with synonym resolution, the
dictzip random-access reader, and the sled / sqlite cache backends),
together with theorems settling the specification claims.

Byte streams are `List Nat` whose elements are byte values; machine
integers are `Nat` with explicit `% 2 ^ w` at the points where the Rust
code performs wrapping (release-mode) arithmetic.
-/

namespace StarDictV

/-! ## UTF-8 lossy decoding (`buf_to_string` in `src/lib.rs`)

`String::from_utf8_lossy` replaces each maximal invalid subpart by one
U+FFFD replacement character; `buf_to_string` then filters every
replacement character out.  The decoder below emits one replacement
character per undecodable byte instead of one per maximal subpart; since a
continuation byte can never begin a valid sequence, the filtered result —
the only thing `buf_to_string` ever exposes — is identical. -/

def repChar : Char := Char.ofNat 0xFFFD

def isCont (b : Nat) : Bool := 0x80 ≤ b && b ≤ 0xBF

def snd3Lo (b : Nat) : Nat := if b = 0xE0 then 0xA0 else 0x80

def snd3Hi (b : Nat) : Nat := if b = 0xED then 0x9F else 0xBF

def snd4Lo (b : Nat) : Nat := if b = 0xF0 then 0x90 else 0x80

def snd4Hi (b : Nat) : Nat := if b = 0xF4 then 0x8F else 0xBF

def utf8Lossy : List Nat → List Char
  | [] => []
  | b :: rest =>
    if b < 0x80 then Char.ofNat b :: utf8Lossy rest
    else if 0xC2 ≤ b && b ≤ 0xDF then
      match rest with
      | c :: rest2 =>
        if isCont c then
          Char.ofNat ((b % 0x20) * 0x40 + (c % 0x40)) :: utf8Lossy rest2
        else repChar :: utf8Lossy (c :: rest2)
      | [] => [repChar]
    else if 0xE0 ≤ b && b ≤ 0xEF then
      match rest with
      | c :: d :: rest2 =>
        if (snd3Lo b ≤ c && c ≤ snd3Hi b) && isCont d then
          Char.ofNat ((b % 0x10) * 0x1000 + (c % 0x40) * 0x40 + (d % 0x40)) ::
            utf8Lossy rest2
        else repChar :: utf8Lossy (c :: d :: rest2)
      | [c] => repChar :: utf8Lossy [c]
      | [] => [repChar]
    else if 0xF0 ≤ b && b ≤ 0xF4 then
      match rest with
      | c :: d :: e :: rest2 =>
        if ((snd4Lo b ≤ c && c ≤ snd4Hi b) && isCont d) && isCont e then
          Char.ofNat
              ((b % 0x8) * 0x40000 + (c % 0x40) * 0x1000 + (d % 0x40) * 0x40 +
                (e % 0x40)) :: utf8Lossy rest2
        else repChar :: utf8Lossy (c :: d :: e :: rest2)
      | [c, d] => repChar :: utf8Lossy [c, d]
      | [c] => repChar :: utf8Lossy [c]
      | [] => [repChar]
    else repChar :: utf8Lossy rest

/-- `buf_to_string` (`src/lib.rs`): lossy UTF-8 decoding with every
replacement character dropped. -/
def buf_to_string (buf : List Nat) : String :=
  ⟨(utf8Lossy buf).filter (fun c => c ≠ repChar)⟩

/-- Rust `str::to_lowercase`, restricted to the simple per-character case
mapping (all concrete inputs in this development are ASCII, where the two
coincide). -/
def lowercase (s : String) : String := ⟨s.data.map Char.toLower⟩

/-! ## Data model (`src/idx.rs`, `src/lib.rs`) -/

structure IdxRawEntry where
  word : String
  offset : Nat
  size : Nat
deriving DecidableEq, Repr

structure IdxEntryBlock where
  offset : Nat
  size : Nat
deriving DecidableEq, Repr

structure IdxEntry where
  word : String
  blocks : List IdxEntryBlock
deriving DecidableEq, Repr

structure WordDefinitionSegment where
  types : String
  text : String
deriving DecidableEq, Repr

structure WordDefinition where
  word : String
  segments : List WordDefinitionSegment
deriving DecidableEq, Repr

/-- `Idx.items`: a `HashMap` keyed by lowercase headword, embedded as an
association list with unique keys; the list order stands for the map's
(arbitrary but fixed) iteration order. -/
abbrev Items := List (String × IdxEntry)

/-- `Idx.syn`: lowercase alias → set of lowercase headwords. The value
`HashSet` is embedded as a duplicate-free list. -/
abbrev Syn := List (String × List String)

def alookup {α : Type} (l : List (String × α)) (k : String) : Option α :=
  match l.find? (fun p => p.1 = k) with
  | some p => some p.2
  | none => none

def containsKey {α : Type} (l : List (String × α)) (k : String) : Bool :=
  (alookup l k).isSome

/-! ## Dict reader (`src/dict.rs`) -/

/-- `parse_data` (`src/dict.rs`): decode one block's bytes into a
`(types, text)` pair given the ifo's `sametypesequence`. -/
def parse_data (data : List Nat) (types : String) : Option (String × String) :=
  if types = "" then
    if data.length < 2 then none
    else some (⟨[Char.ofNat data.headI]⟩, buf_to_string data.tail)
  else some (types, buf_to_string data)

/-- The plain dict reader's byte-range read: `None` past end of file,
otherwise exactly `size` bytes from `offset`. -/
def readRange (dict : List Nat) (offset size : Nat) : Option (List Nat) :=
  if offset + size ≤ dict.length then some ((dict.drop offset).take size)
  else none

/-- `Dict::get_definition` (`src/dict.rs`), plain-file variant: decode each
block of an `IdxEntry`; blocks that fail are skipped; `none` when every
block failed. -/
def get_definition (dict : List Nat) (sts : String) (entry : IdxEntry) :
    Option WordDefinition :=
  let segments := entry.blocks.filterMap (fun b =>
    match readRange dict b.offset b.size with
    | some buf =>
      (parse_data buf sts).map (fun p => WordDefinitionSegment.mk p.1 p.2)
    | none => none)
  if segments = [] then none
  else some ⟨entry.word, segments⟩

/-! ## Idx construction (`src/idx.rs`, `read`) -/

/-- `items.entry(key).or_insert(..)` followed by `push_block`: group a raw
entry into the association list, appending a fresh key at the end. -/
def insertBlock (items : Items) (key : String) (word : String)
    (offset size : Nat) : Items :=
  match items with
  | [] => [(key, ⟨word, [⟨offset, size⟩]⟩)]
  | (k, e) :: rest =>
    if k = key then (k, ⟨e.word, e.blocks ++ [⟨offset, size⟩]⟩) :: rest
    else (k, e) :: insertBlock rest key word offset size

/-- One raw entry of the coalescing loop of `read` (`src/idx.rs`): raw
entries with an empty headword are skipped, the others are grouped by
lowercase headword. -/
def buildStep (items : Items) (raw : IdxRawEntry) : Items :=
  if raw.word = "" then items
  else insertBlock items (lowercase raw.word) raw.word raw.offset raw.size

/-- The coalescing loop of `read` (`src/idx.rs`). -/
def buildItems (vec : List IdxRawEntry) : Items :=
  vec.foldl buildStep []

/-! ## Synonym table (`src/idx.rs`, `load_syn`) -/

/-- `HashSet::insert` inside `syn.entry(..).or_insert(..)`. -/
def synInsert (syn : Syn) (key v : String) : Syn :=
  match syn with
  | [] => [(key, [v])]
  | (k, s) :: rest =>
    if k = key then (k, if v ∈ s then s else s ++ [v]) :: rest
    else (k, s) :: synInsert rest key v

/-- One iteration of the `load_syn` loop for a parsed `(alias, index)`
record: empty aliases are skipped; an out-of-range index is skipped; the
forward edge is always inserted, the reverse edge only when the alias is
itself an `items` key. -/
def loadSynStep (vec : List IdxRawEntry) (items : Items) (syn : Syn)
    (r : String × Nat) : Syn :=
  if r.1 = "" then syn
  else
    match vec.get? r.2 with
    | none => syn
    | some raw =>
      let syn1 := synInsert syn (lowercase r.1) (lowercase raw.word)
      if containsKey items (lowercase r.1) then
        synInsert syn1 (lowercase raw.word) (lowercase r.1)
      else syn1

/-- `load_syn` (`src/idx.rs`) over already-parsed `(alias, index)` records. -/
def load_syn (vec : List IdxRawEntry) (items : Items)
    (records : List (String × Nat)) : Syn :=
  records.foldl (loadSynStep vec items) []

/-! ## Byte-level `.syn` parsing (the read loop of `load_syn`)

`reader.read_until(0, ..)` appends bytes up to and including the NUL (or to
EOF); `reader.read(&mut b)` on a `BufReader<File>` at EOF returns `Ok(k)`
with `k < 4` and leaves the rest of the zero-initialised 4-byte buffer
untouched — it does **not** return `Err`, so the `InvalidSynIndex` arm is
not reached by truncation. -/

def readUntil0 : List Nat → List Nat × List Nat
  | [] => ([], [])
  | b :: rest =>
    if b = 0 then ([0], rest)
    else
      let (buf, r) := readUntil0 rest
      (b :: buf, r)

def parseSynAux : Nat → List Nat → List (String × Nat)
  | 0, _ => []
  | fuel + 1, bytes =>
    let (buf, rest) := readUntil0 bytes
    if buf.length = 0 then []
    else
      let buf2 := if buf.getLast? = some 0 then buf.dropLast else buf
      let word := buf_to_string buf2
      let bs := rest.take 4
      let b4 := bs ++ List.replicate (4 - bs.length) 0
      let index :=
        (b4.headI % 256) * 0x1000000 + (b4.tail.headI % 256) * 0x10000 +
          (b4.tail.tail.headI % 256) * 0x100 + (b4.tail.tail.tail.headI % 256)
      (word, index) :: parseSynAux fuel (rest.drop 4)

/-- The `.syn` record parse loop: each record is a NUL-terminated alias
followed by a 4-byte big-endian index, zero-padded when the file is
truncated. -/
def parseSynRecords (bytes : List Nat) : List (String × Nat) :=
  parseSynAux (bytes.length + 1) bytes

/-! ## Lookup (`src/idx.rs` `lookup_blocks`, `src/stardict.rs` `lookup`) -/

/-- The alias loop of `lookup_blocks`: append each alias's entry unless its
canonical headword was already collected. -/
def lookupAliases (items : Items) :
    List String → List IdxEntry → List String → List IdxEntry
  | [], vec, _ => vec
  | k :: rest, vec, found =>
    match alookup items k with
    | some entry =>
      if entry.word ∈ found then lookupAliases items rest vec found
      else lookupAliases items rest (vec ++ [entry]) (found ++ [entry.word])
    | none => lookupAliases items rest vec found

/-- `Idx::lookup_blocks` (`src/idx.rs`): direct hit first, then synonym
aliases, deduplicated by canonical headword; `none` when nothing found. -/
def lookup_blocks (items : Items) (syn : Option Syn) (word : String) :
    Option (List IdxEntry) :=
  let k := lowercase word
  let start : List IdxEntry × List String :=
    match alookup items k with
    | some entry => ([entry], [entry.word])
    | none => ([], [])
  let vec :=
    match syn with
    | some synMap =>
      match alookup synMap k with
      | some aliasKeys => lookupAliases items aliasKeys start.1 start.2
      | none => start.1
    | none => start.1
  if vec = [] then none else some vec

/-- `StarDict::lookup` (`src/stardict.rs`): decode every found entry,
keeping the successes; returns `some` (possibly of an empty list) whenever
the index lookup found at least one entry. -/
def starDictLookup (items : Items) (syn : Option Syn) (dict : List Nat)
    (sts : String) (word : String) : Option (List WordDefinition) :=
  match lookup_blocks items syn word with
  | none => none
  | some entries => some (entries.filterMap (get_definition dict sts))

/-! ## Errors (`src/error.rs`, the variants the claims touch) -/

inductive Error where
  | invalidIdxBlock (word : String)
  | invalidSynIndex (word : String)
  | failedParseDictHeader (reason : String)
  | failedReadHeader
  | invalidDict
deriving DecidableEq, Repr

/-! ## Sqlite cache backend (`src/stardict_sqlite.rs`)

The relational store: `word(id, word, definition)` rows with sqlite rowids
assigned 1, 2, …  in insertion order, `segment(word_id, types, text)` rows
in insertion order, and `alias(word, aliases)` rows holding the JSON-coded
alias set (the serde round trip preserves the set, embedded here as the
list itself). -/

structure SqliteCache where
  words : List (Nat × String × String)
  segs : List (Nat × WordDefinitionSegment)
  aliases : List (String × List String)
deriving DecidableEq, Repr

/-- One item of the `import_cache` loop (`src/stardict_sqlite.rs`):
entries whose blocks fail to decode are skipped with `continue`; a decoded
entry inserts one `word` row (rowid `acc.2.2`) and its `segment` rows. -/
def sqliteStep (dict : List Nat) (sts : String)
    (acc : List (Nat × String × String) ×
      List (Nat × WordDefinitionSegment) × Nat) (p : String × IdxEntry) :
    List (Nat × String × String) × List (Nat × WordDefinitionSegment) × Nat :=
  match get_definition dict sts p.2 with
  | none => acc
  | some d =>
    (acc.1 ++ [(acc.2.2, lowercase p.1, d.word)],
     acc.2.1 ++ d.segments.map (fun s => (acc.2.2, s)),
     acc.2.2 + 1)

/-- `import_cache` (`src/stardict_sqlite.rs`): iterate the parsed items
skipping undecodable entries, then copy the synonym table when present. -/
def importCacheSqlite (items : Items) (syn : Option Syn) (dict : List Nat)
    (sts : String) : SqliteCache :=
  let folded := items.foldl (sqliteStep dict sts) ([], [], 1)
  let aliases :=
    match syn with
    | some m => m.map (fun q => (lowercase q.1, q.2))
    | none => []
  ⟨folded.1, folded.2.1, aliases⟩

/-- `query_definition` (`src/stardict_sqlite.rs`): first `word` row for the
key in id order, with its `segment` rows in insertion order. -/
def queryDefinition (c : SqliteCache) (k : String) : Option WordDefinition :=
  match c.words.find? (fun r => r.2.1 = k) with
  | some r =>
    some ⟨r.2.2, (c.segs.filter (fun s => s.1 = r.1)).map (fun s => s.2)⟩
  | none => none

def encodeDefinition (d : WordDefinition) : List String :=
  d.word :: d.segments.foldr (fun s acc => s.types :: s.text :: acc) []

def sledInsert (db : List (String × List String)) (k : String)
    (v : List String) : List (String × List String) :=
  match db with
  | [] => [(k, v)]
  | (k0, v0) :: rest =>
    if k0 = k then (k, v) :: rest else (k0, v0) :: sledInsert rest k v

/-- The item loop of `import_cache` (`src/stardict_sled.rs`): an entry
whose blocks fail to decode aborts the whole import with
`Error::InvalidIdxBlock`. -/
def importSledItems (dict : List Nat) (sts : String) :
    Items → List (String × List String) →
    Except Error (List (String × List String))
  | [], db => .ok db
  | (w, e) :: rest, db =>
    match get_definition dict sts e with
    | none => .error (.invalidIdxBlock w)
    | some d => importSledItems dict sts rest (sledInsert db (lowercase w) (encodeDefinition d))

structure SledDb where
  idxDb : List (String × List String)
  synDb : List (String × List String)
deriving DecidableEq, Repr

/-- `import_cache` (`src/stardict_sled.rs`): populate the record-per-key
store, then the synonym store. -/
def importCacheSled (items : Items) (syn : Syn) (dict : List Nat)
    (sts : String) : Except Error SledDb :=
  match importSledItems dict sts items [] with
  | .error err => .error err
  | .ok idxDb =>
    let synDb := syn.foldl
      (fun db q => sledInsert db (lowercase q.1) (q.2.map lowercase)) []
    .ok ⟨idxDb, synDb⟩

def USIZE : Nat := 2 ^ 64

inductive TextResult where
  | panic
  | noValue
  | text (s : String)
deriving DecidableEq, Repr

/-- `DictZip::get_text` (`src/dictzip.rs`). -/
def get_text (chunkLength : Nat) (chunks : List (List Nat))
    (offset size : Nat) : TextResult :=
  if chunkLength = 0 then .panic
  else
    let chunkCount := chunks.length
    let firstChunk := offset / chunkLength
    if firstChunk > chunkCount then .noValue
    else
      let lastChunk := ((offset + size + (USIZE - 1)) % USIZE) / chunkLength
      if lastChunk ≥ chunkCount then .noValue
      else
        let buf := ((chunks.drop firstChunk).take (lastChunk + 1 - firstChunk)).flatten
        let chunkOffset := offset - firstChunk * chunkLength
        if chunkOffset + size > buf.length then .panic
        else .text (buf_to_string ((buf.drop chunkOffset).take size))

/-! ## Dictzip header chunk table (`src/dictzip.rs`, `read_chunks`)

A forward-only byte reader: `read_u16::<LE>` pops two bytes,
`seek(SeekFrom::Current(n))` with `n ≥ 0` drops `n` bytes; reading past the
end is the `std::io` error that `?` propagates (`failedReadHeader`). The
u16 counters `bytes_read` and `ra_read` wrap modulo `2 ^ 16`. -/

def brU16 : List Nat → Option (Nat × List Nat)
  | b0 :: b1 :: rest => some (b0 % 256 + 256 * (b1 % 256), rest)
  | _ => none

/-- The two-byte little-endian encoding of a u16 value. -/
def u16le (n : Nat) : List Nat := [n % 256, n / 256 % 256]

/-- Membership of a value in the synonym table. -/
def SynMemP (syn : Syn) (k v : String) : Prop :=
  ∃ s, alookup syn k = some s ∧ v ∈ s

/-- The sub-field scan loop of `read_chunks`: skip sub-fields until the RA
id; returns the reader after the RA field id together with the updated
`bytes_read`.  Every iteration consumes at least four bytes, so fuel
`data.length + 1` is never exhausted. -/
def scanRA : Nat → List Nat → Nat → Nat → Except Error (List Nat × Nat)
  | 0, _, _, _ => .error .failedReadHeader
  | fuel + 1, r, extraLen, bytesRead =>
    if bytesRead < extraLen then
      match brU16 r with
      | none => .error .failedReadHeader
      | some (fieldId, r1) =>
        let bytesRead1 := (bytesRead + 2) % 65536
        if fieldId = 0x4152 then .ok (r1, bytesRead1)
        else
          match brU16 r1 with
          | none => .error .failedReadHeader
          | some (subLen, r2) =>
            scanRA fuel (r2.drop subLen) extraLen
              ((bytesRead1 + 2 + subLen) % 65536)
    else .ok (r, bytesRead)

/-- The chunk-size read loop: `chunk_count` little-endian u16 values, with
`ra_read` accumulated modulo `2 ^ 16`. -/
def readChunkSizes : Nat → List Nat → Nat →
    Except Error (List Nat × Nat × List Nat)
  | 0, r, raRead => .ok (r, raRead, [])
  | n + 1, r, raRead =>
    match brU16 r with
    | none => .error .failedReadHeader
    | some (v, r1) =>
      match readChunkSizes n r1 ((raRead + 2) % 65536) with
      | .error e => .error e
      | .ok (r2, raRead2, vs) => .ok (r2, raRead2, v :: vs)

/-- `read_chunks` (`src/dictzip.rs`): parse the gzip extra field, locate
the RA sub-field, validate `ra_size - ra_read == chunk_count * 2` in
wrapping u16 arithmetic, read the chunk sizes, and skip the remaining
extra bytes.  Returns the remaining stream, the chunk length and the chunk
compressed sizes. -/
def read_chunks (r : List Nat) : Except Error (List Nat × Nat × List Nat) :=
  match brU16 r with
  | none => .error .failedReadHeader
  | some (extraLen, r1) =>
    match scanRA (r1.length + 1) r1 extraLen 0 with
    | .error e => .error e
    | .ok (r2, bytesRead) =>
      if (extraLen + 65536 - bytesRead) % 65536 = 0 then
        .error (.failedParseDictHeader "Failed to find RA data!")
      else
        match brU16 r2 with
        | none => .error .failedReadHeader
        | some (raSize, r3) =>
          let bytesRead1 := (bytesRead + 2) % 65536
          match brU16 r3 with
          | none => .error .failedReadHeader
          | some (version, r4) =>
            if version ≠ 1 then
              .error (.failedParseDictHeader "Incorrect ra version")
            else
              match brU16 r4 with
              | none => .error .failedReadHeader
              | some (chunkLength, r5) =>
                match brU16 r5 with
                | none => .error .failedReadHeader
                | some (chunkCount, r6) =>
                  if (raSize + 65536 - 6) % 65536 ≠ (chunkCount * 2) % 65536 then
                    .error (.failedParseDictHeader
                      "Subfield size remaining too small for chunk count")
                  else
                    match readChunkSizes chunkCount r6 6 with
                    | .error e => .error e
                    | .ok (r7, raRead, chunks) =>
                      let toSkip :=
                        ((extraLen + 65536 - bytesRead1) % 65536 + 65536 -
                          raRead) % 65536
                      let r8 := if toSkip > 0 then r7.drop toSkip else r7
                      .ok (r8, chunkLength, chunks)

instance {ε α : Type} [DecidableEq ε] [DecidableEq α] :
    DecidableEq (Except ε α) := fun a b =>
  match a, b with
  | .error x, .error y =>
    if h : x = y then isTrue (by rw [h])
    else isFalse (by intro c; injection c; contradiction)
  | .ok x, .ok y =>
    if h : x = y then isTrue (by rw [h])
    else isFalse (by intro c; injection c; contradiction)
  | .error _, .ok _ => isFalse (by intro c; cases c)
  | .ok _, .error _ => isFalse (by intro c; cases c)

/-! ## Association-list lemmas -/

theorem alookup_mem {α : Type} {l : List (String × α)} {k : String} {v : α}
    (h : alookup l k = some v) : (k, v) ∈ l := by
  unfold alookup at h
  cases hf : l.find? (fun p => p.1 = k) with
  | none => rw [hf] at h; cases h
  | some p =>
    rw [hf] at h
    have hm := List.mem_of_find?_eq_some hf
    have hk := List.find?_some hf
    simp only [decide_eq_true_eq] at hk
    cases h
    rw [← hk]
    exact hm

theorem alookup_of_mem_nodup {α : Type} {l : List (String × α)} {k : String}
    {v : α} (hnd : (l.map Prod.fst).Nodup) (hm : (k, v) ∈ l) :
    alookup l k = some v := by
  induction l with
  | nil => cases hm
  | cons p rest ih =>
    simp only [List.map_cons, List.nodup_cons] at hnd
    rcases List.mem_cons.mp hm with h | h
    · subst h
      simp [alookup, List.find?]
    · have hk : p.1 ≠ k := by
        intro he
        exact hnd.1 (he ▸ (List.mem_map.mpr ⟨(k, v), h, rfl⟩))
      have hrest := ih hnd.2 h
      simp only [alookup, List.find?] at hrest ⊢
      rw [decide_eq_false hk]
      exact hrest

theorem mem_unique_by_key {α : Type} {l : List (String × α)} {k : String}
    {a b : α} (hnd : (l.map Prod.fst).Nodup) (ha : (k, a) ∈ l)
    (hb : (k, b) ∈ l) : a = b := by
  have h1 := alookup_of_mem_nodup hnd ha
  have h2 := alookup_of_mem_nodup hnd hb
  rw [h1] at h2
  exact Option.some_injective _ h2

theorem containsKey_true_iff {α : Type} {l : List (String × α)} {k : String} :
    containsKey l k = true ↔ ∃ v, alookup l k = some v := by
  unfold containsKey
  cases alookup l k <;> simp

theorem alookup_cons {α : Type} (k0 : String) (v0 : α)
    (rest : List (String × α)) (k : String) :
    alookup ((k0, v0) :: rest) k =
      if k0 = k then some v0 else alookup rest k := by
  simp only [alookup, List.find?]
  by_cases h : k0 = k
  · rw [decide_eq_true h, if_pos h]
  · rw [decide_eq_false h, if_neg h]

/-! ## `buildItems` invariants -/

theorem containsKey_insertBlock_self (items : Items) (key w : String)
    (o s : Nat) : containsKey (insertBlock items key w o s) key = true := by
  induction items with
  | nil =>
    simp [insertBlock, containsKey, alookup_cons]
  | cons p rest ih =>
    obtain ⟨k0, e⟩ := p
    by_cases h : k0 = key
    · simp [insertBlock, h, containsKey, alookup_cons]
    · simp only [insertBlock, if_neg h]
      simp only [containsKey, alookup_cons, if_neg h] at ih ⊢
      exact ih

theorem containsKey_insertBlock_of (items : Items) (key w : String)
    (o s : Nat) (k : String) (h : containsKey items k = true) :
    containsKey (insertBlock items key w o s) k = true := by
  induction items with
  | nil => simp [containsKey, alookup] at h
  | cons p rest ih =>
    obtain ⟨k0, e⟩ := p
    simp only [containsKey, alookup_cons] at h
    by_cases hk : k0 = key
    · simp only [insertBlock, if_pos hk, containsKey, alookup_cons]
      by_cases hk2 : k0 = k
      · rw [if_pos hk2]; rfl
      · rw [if_neg hk2]
        rw [if_neg hk2] at h
        exact h
    · simp only [insertBlock, if_neg hk, containsKey, alookup_cons]
      by_cases hk2 : k0 = k
      · rw [if_pos hk2]; rfl
      · rw [if_neg hk2]
        rw [if_neg hk2] at h
        exact ih h

theorem containsKey_buildFold_of (vec : List IdxRawEntry) (init : Items)
    (k : String) (h : containsKey init k = true) :
    containsKey (vec.foldl buildStep init) k = true := by
  induction vec generalizing init with
  | nil => exact h
  | cons raw rest ih =>
    rw [List.foldl_cons]
    apply ih
    unfold buildStep
    by_cases hw : raw.word = ""
    · rw [if_pos hw]; exact h
    · rw [if_neg hw]; exact containsKey_insertBlock_of _ _ _ _ _ _ h

theorem buildItems_containsKey (vec : List IdxRawEntry) (raw : IdxRawEntry)
    (hmem : raw ∈ vec) (hne : raw.word ≠ "") :
    containsKey (buildItems vec) (lowercase raw.word) = true := by
  unfold buildItems
  obtain ⟨l1, l2, rfl⟩ := List.append_of_mem hmem
  rw [List.foldl_append, List.foldl_cons]
  apply containsKey_buildFold_of
  unfold buildStep
  rw [if_neg hne]
  exact containsKey_insertBlock_self _ _ _ _ _

/-! ## `synInsert` characterisation -/

theorem alookup_synInsert_same (syn : Syn) (v : String) (key : String) :
    alookup (synInsert syn key v) key =
      some (match alookup syn key with
            | some s => if v ∈ s then s else s ++ [v]
            | none => [v]) := by
  induction syn with
  | nil =>
    show alookup [(key, [v])] key = _
    rw [alookup_cons, if_pos rfl]
    rfl
  | cons p rest ih =>
    obtain ⟨k0, s0⟩ := p
    by_cases h0 : k0 = key
    · subst h0
      rw [show synInsert ((k0, s0) :: rest) k0 v =
            (k0, if v ∈ s0 then s0 else s0 ++ [v]) :: rest from by
          simp [synInsert]]
      rw [alookup_cons, if_pos rfl, alookup_cons, if_pos rfl]

    · rw [show synInsert ((k0, s0) :: rest) key v =
            (k0, s0) :: synInsert rest key v from by simp [synInsert, h0]]
      rw [alookup_cons, if_neg h0, alookup_cons, if_neg h0]
      exact ih

theorem alookup_synInsert_other (syn : Syn) (key v k : String)
    (h : key ≠ k) : alookup (synInsert syn key v) k = alookup syn k := by
  induction syn with
  | nil =>
    show alookup [(key, [v])] k = _
    rw [alookup_cons, if_neg h]
  | cons p rest ih =>
    obtain ⟨k0, s0⟩ := p
    by_cases h0 : k0 = key
    · subst h0
      rw [show synInsert ((k0, s0) :: rest) k0 v =
            (k0, if v ∈ s0 then s0 else s0 ++ [v]) :: rest from by
          simp [synInsert]]
      rw [alookup_cons, if_neg h, alookup_cons, if_neg h]
    · rw [show synInsert ((k0, s0) :: rest) key v =
            (k0, s0) :: synInsert rest key v from by simp [synInsert, h0]]
      rw [alookup_cons, alookup_cons]
      by_cases hk : k0 = k
      · rw [if_pos hk, if_pos hk]
      · rw [if_neg hk, if_neg hk]
        exact ih

theorem synMem_insert_self (syn : Syn) (key v : String) :
    SynMemP (synInsert syn key v) key v := by
  refine ⟨_, alookup_synInsert_same syn v key, ?_⟩
  cases h : alookup syn key with
  | none => simp
  | some s =>
    by_cases hv : v ∈ s
    · simpa [if_pos hv] using hv
    · simp [if_neg hv]

theorem synMem_insert_mono {syn : Syn} {k w : String} (key v : String)
    (h : SynMemP syn k w) : SynMemP (synInsert syn key v) k w := by
  obtain ⟨s, hs, hw⟩ := h
  by_cases hk : key = k
  · subst hk
    refine ⟨_, alookup_synInsert_same syn v key, ?_⟩
    rw [hs]
    by_cases hv : v ∈ s
    · simpa [if_pos hv] using hw
    · simp only [if_neg hv]
      exact List.mem_append_left _ hw
  · exact ⟨s, by rw [alookup_synInsert_other _ _ _ _ hk]; exact hs, hw⟩

theorem synMem_insert_elim {syn : Syn} {key v0 k v : String}
    (h : SynMemP (synInsert syn key v0) k v) : v = v0 ∨ SynMemP syn k v := by
  obtain ⟨s, hs, hv⟩ := h
  by_cases hk : key = k
  · subst hk
    rw [alookup_synInsert_same syn v0 key] at hs
    cases h2 : alookup syn key with
    | none =>
      simp only [h2, Option.some.injEq] at hs
      subst hs
      left
      simpa using hv
    | some s2 =>
      simp only [h2, Option.some.injEq] at hs
      subst hs
      by_cases hv0 : v0 ∈ s2
      · rw [if_pos hv0] at hv
        right
        exact ⟨s2, h2, hv⟩
      · rw [if_neg hv0] at hv
        rcases List.mem_append.mp hv with h3 | h3
        · right; exact ⟨s2, h2, h3⟩
        · left; simpa using h3
  · rw [alookup_synInsert_other _ _ _ _ hk] at hs
    right
    exact ⟨s, hs, hv⟩

/-! ## C5: every synonym value references an `items` key, or is empty -/

theorem loadSynStep_inv (vec : List IdxRawEntry) (items : Items) (syn : Syn)
    (r : String × Nat)
    (hvi : ∀ raw ∈ vec, raw.word ≠ "" →
      containsKey items (lowercase raw.word) = true)
    (hinv : ∀ k v, SynMemP syn k v → containsKey items v = true ∨ v = "") :
    ∀ k v, SynMemP (loadSynStep vec items syn r) k v →
      containsKey items v = true ∨ v = "" := by
  intro k v h
  unfold loadSynStep at h
  split at h
  · exact hinv k v h
  · split at h
    · exact hinv k v h
    · rename_i h1 raw h2
      simp only at h
      split at h
      · rename_i hc
        rcases synMem_insert_elim h with h3 | h3
        · subst h3; left; exact hc
        · rcases synMem_insert_elim h3 with h4 | h4
          · subst h4
            by_cases hw : raw.word = ""
            · right; rw [hw]; rfl
            · left; exact hvi raw (List.get?_mem h2) hw
          · exact hinv k v h4
      · rcases synMem_insert_elim h with h4 | h4
        · subst h4
          by_cases hw : raw.word = ""
          · right; rw [hw]; rfl
          · left; exact hvi raw (List.get?_mem h2) hw
        · exact hinv k v h4

theorem load_syn_fold_inv (vec : List IdxRawEntry) (items : Items)
    (hvi : ∀ raw ∈ vec, raw.word ≠ "" →
      containsKey items (lowercase raw.word) = true) :
    ∀ (records : List (String × Nat)) (syn0 : Syn),
      (∀ k v, SynMemP syn0 k v → containsKey items v = true ∨ v = "") →
      ∀ k v, SynMemP (records.foldl (loadSynStep vec items) syn0) k v →
        containsKey items v = true ∨ v = "" := by
  intro records
  induction records with
  | nil => intro syn0 hinv; exact hinv
  | cons r rest ih =>
    intro syn0 hinv
    rw [List.foldl_cons]
    exact ih (loadSynStep vec items syn0 r)
      (loadSynStep_inv vec items syn0 r hvi hinv)

/-- C5 (amended): in an `Idx` built by parsing `.idx` together with
`.syn`, every lowercase headword stored in a value set of the syn table is
either a key present in `items` or the **empty string**; the empty string
arises when a `.syn` record's index refers to a raw `.idx` entry whose
headword is empty, and the empty string is not an `items` key. -/
theorem c5_syn_values_are_keys_or_empty (vec : List IdxRawEntry)
    (records : List (String × Nat)) (k v : String) (s : List String)
    (hs : alookup (load_syn vec (buildItems vec) records) k = some s)
    (hv : v ∈ s) :
    containsKey (buildItems vec) v = true ∨ v = "" := by
  refine load_syn_fold_inv vec (buildItems vec)
    (fun raw hm hne => buildItems_containsKey vec raw hm hne) records [] ?_
    k v ⟨s, hs, hv⟩
  intro k0 v0 hm
  obtain ⟨s0, hs0, _⟩ := hm
  simp [alookup] at hs0

theorem c5_syn_values_are_keys_or_empty_witness :
    containsKey (buildItems [⟨"b", 0, 1⟩]) "b" = true ∨ "b" = "" :=
  c5_syn_values_are_keys_or_empty [⟨"b", 0, 1⟩] [("a", 0)] "a" "b" ["b"]
    (by decide) (by decide)

/-! ## Key/canonical-word coherence of `buildItems` -/

theorem containsKey_cons {α : Type} (k0 : String) (v : α)
    (rest : List (String × α)) (k : String) :
    containsKey ((k0, v) :: rest) k =
      if k0 = k then true else containsKey rest k := by
  simp only [containsKey, alookup_cons]
  by_cases h : k0 = k
  · rw [if_pos h, if_pos h]; rfl
  · rw [if_neg h, if_neg h]

theorem containsKey_of_mem_keys {α : Type} :
    ∀ (l : List (String × α)) (k : String), k ∈ l.map Prod.fst →
      containsKey l k = true := by
  intro l
  induction l with
  | nil => intro k hk; cases hk
  | cons p rest ih =>
    intro k hk
    obtain ⟨k0, v⟩ := p
    rw [containsKey_cons]
    rcases List.mem_cons.mp hk with h | h
    · rw [if_pos h.symm]
    · by_cases h0 : k0 = k
      · rw [if_pos h0]
      · rw [if_neg h0]; exact ih k h

theorem insertBlock_key_inv (key w : String) (o s : Nat)
    (hkey : key = lowercase w) :
    ∀ (items : Items), (∀ p ∈ items, p.1 = lowercase p.2.word) →
      ∀ p ∈ insertBlock items key w o s, p.1 = lowercase p.2.word := by
  intro items
  induction items with
  | nil =>
    intro _ p hp
    simp only [insertBlock] at hp
    rw [List.mem_singleton.mp hp]
    exact hkey
  | cons q rest ih =>
    obtain ⟨k0, e⟩ := q
    intro hinv p hp
    simp only [insertBlock] at hp
    split at hp
    · rcases List.mem_cons.mp hp with h | h
      · rw [h]
        exact hinv (k0, e) (List.mem_cons_self _ _)
      · exact hinv p (List.mem_cons_of_mem _ h)
    · rcases List.mem_cons.mp hp with h | h
      · rw [h]
        exact hinv (k0, e) (List.mem_cons_self _ _)
      · exact ih (fun p2 hp2 => hinv p2 (List.mem_cons_of_mem _ hp2)) p h

theorem buildFold_key_inv :
    ∀ (vec : List IdxRawEntry) (init : Items),
      (∀ p ∈ init, p.1 = lowercase p.2.word) →
      ∀ p ∈ vec.foldl buildStep init, p.1 = lowercase p.2.word := by
  intro vec
  induction vec with
  | nil => intro init h; exact h
  | cons raw rest ih =>
    intro init h
    rw [List.foldl_cons]
    apply ih
    unfold buildStep
    split
    · exact h
    · exact insertBlock_key_inv _ _ _ _ rfl init h

theorem buildItems_key (vec : List IdxRawEntry) :
    ∀ p ∈ buildItems vec, p.1 = lowercase p.2.word :=
  buildFold_key_inv vec [] (fun p hp => absurd hp (List.not_mem_nil p))

theorem keys_insertBlock (key w : String) (o s : Nat) :
    ∀ (items : Items),
      (insertBlock items key w o s).map Prod.fst =
        if containsKey items key then items.map Prod.fst
        else items.map Prod.fst ++ [key] := by
  intro items
  induction items with
  | nil => simp [insertBlock, containsKey, alookup]
  | cons q rest ih =>
    obtain ⟨k0, e⟩ := q
    by_cases hk : k0 = key
    · rw [show insertBlock ((k0, e) :: rest) key w o s =
          (k0, ⟨e.word, e.blocks ++ [⟨o, s⟩]⟩) :: rest from by
        simp [insertBlock, hk]]
      rw [containsKey_cons, if_pos hk]
      simp
    · rw [show insertBlock ((k0, e) :: rest) key w o s =
          (k0, e) :: insertBlock rest key w o s from by simp [insertBlock, hk]]
      rw [containsKey_cons, if_neg hk]
      simp only [List.map_cons, ih]
      by_cases hc : containsKey rest key = true
      · rw [if_pos hc, if_pos hc]
      · rw [if_neg hc, if_neg hc]
        rfl

theorem buildFold_nodup :
    ∀ (vec : List IdxRawEntry) (init : Items),
      (init.map Prod.fst).Nodup →
      ((vec.foldl buildStep init).map Prod.fst).Nodup := by
  intro vec
  induction vec with
  | nil => intro init h; exact h
  | cons raw rest ih =>
    intro init h
    rw [List.foldl_cons]
    apply ih
    unfold buildStep
    split
    · exact h
    · rw [keys_insertBlock]
      split
      · exact h
      · rename_i hc
        refine List.Nodup.append h (List.nodup_singleton _) ?_
        intro x hx hx2
        rw [List.mem_singleton.mp hx2] at hx
        exact hc (containsKey_of_mem_keys init _ hx)

theorem buildItems_nodupKeys (vec : List IdxRawEntry) :
    ((buildItems vec).map Prod.fst).Nodup :=
  buildFold_nodup vec [] List.nodup_nil

/-! ## `load_syn` edge lemmas -/

theorem loadSynStep_mono {syn : Syn} {k v : String} (vec : List IdxRawEntry)
    (items : Items) (r : String × Nat) (h : SynMemP syn k v) :
    SynMemP (loadSynStep vec items syn r) k v := by
  unfold loadSynStep
  split
  · exact h
  · split
    · exact h
    · simp only
      split
      · exact synMem_insert_mono _ _ (synMem_insert_mono _ _ h)
      · exact synMem_insert_mono _ _ h

theorem foldl_synMem_mono (vec : List IdxRawEntry) (items : Items) :
    ∀ (rs : List (String × Nat)) (syn : Syn) (k v : String),
      SynMemP syn k v →
      SynMemP (rs.foldl (loadSynStep vec items) syn) k v := by
  intro rs
  induction rs with
  | nil => intro syn k v h; exact h
  | cons r rest ih =>
    intro syn k v h
    rw [List.foldl_cons]
    exact ih _ k v (loadSynStep_mono vec items r h)

theorem load_syn_edges (vec : List IdxRawEntry) (items : Items)
    (pre post : List (String × Nat)) (a : String) (i : Nat)
    (raw : IdxRawEntry) (ha : a ≠ "") (hraw : vec.get? i = some raw)
    (hcont : containsKey items (lowercase a) = true) :
    SynMemP (load_syn vec items (pre ++ (a, i) :: post))
      (lowercase a) (lowercase raw.word) ∧
    SynMemP (load_syn vec items (pre ++ (a, i) :: post))
      (lowercase raw.word) (lowercase a) := by
  unfold load_syn
  rw [List.foldl_append, List.foldl_cons]
  have hstep : loadSynStep vec items (pre.foldl (loadSynStep vec items) []) (a, i) =
      synInsert (synInsert (pre.foldl (loadSynStep vec items) [])
        (lowercase a) (lowercase raw.word)) (lowercase raw.word)
        (lowercase a) := by
    simp only [loadSynStep, hraw]
    rw [if_neg ha, if_pos hcont]
  rw [hstep]
  exact ⟨foldl_synMem_mono vec items post _ _ _
      (synMem_insert_mono _ _ (synMem_insert_self _ _ _)),
    foldl_synMem_mono vec items post _ _ _ (synMem_insert_self _ _ _)⟩

/-! ## `lookup_blocks` membership lemmas -/

theorem lookupAliases_persist (items : Items) :
    ∀ (keys : List String) (vec : List IdxEntry) (found : List String)
      (d : IdxEntry), d ∈ vec → d ∈ lookupAliases items keys vec found := by
  intro keys
  induction keys with
  | nil => intro vec found d hd; exact hd
  | cons k rest ih =>
    intro vec found d hd
    simp only [lookupAliases]
    split
    · split
      · exact ih vec found d hd
      · exact ih _ _ d (List.mem_append_left _ hd)
    · exact ih vec found d hd

theorem lookupAliases_src (items : Items) :
    ∀ (keys : List String) (vec : List IdxEntry) (found : List String)
      (d : IdxEntry), d ∈ lookupAliases items keys vec found →
      d ∈ vec ∨ ∃ k, alookup items k = some d := by
  intro keys
  induction keys with
  | nil => intro vec found d hd; exact Or.inl hd
  | cons k rest ih =>
    intro vec found d hd
    simp only [lookupAliases] at hd
    split at hd
    · rename_i entry hk
      split at hd
      · exact ih vec found d hd
      · rcases ih _ _ d hd with h1 | h1
        · rcases List.mem_append.mp h1 with h2 | h2
          · exact Or.inl h2
          · right
            refine ⟨k, ?_⟩
            rw [List.mem_singleton.mp h2]
            exact hk
        · exact Or.inr h1
    · exact ih vec found d hd

theorem foundInv_extend {vec : List IdxEntry} {found : List String}
    (entry : IdxEntry)
    (hinv : ∀ w, w ∈ found ↔ ∃ d ∈ vec, d.word = w) :
    ∀ w, w ∈ found ++ [entry.word] ↔ ∃ d ∈ vec ++ [entry], d.word = w := by
  intro w
  constructor
  · intro hw
    rcases List.mem_append.mp hw with h1 | h1
    · obtain ⟨d, hd, hdw⟩ := (hinv w).mp h1
      exact ⟨d, List.mem_append_left _ hd, hdw⟩
    · exact ⟨entry, List.mem_append_right _ (List.mem_singleton_self _),
        (List.mem_singleton.mp h1).symm⟩
  · rintro ⟨d, hd, hdw⟩
    rcases List.mem_append.mp hd with h1 | h1
    · exact List.mem_append_left _ ((hinv w).mpr ⟨d, h1, hdw⟩)
    · rw [List.mem_singleton.mp h1] at hdw
      exact List.mem_append_right _ (by simp [hdw.symm])

theorem lookupAliases_mem_word (items : Items) :
    ∀ (keys : List String) (vec : List IdxEntry) (found : List String),
      (∀ w, w ∈ found ↔ ∃ d ∈ vec, d.word = w) →
      ∀ (k : String) (e : IdxEntry), k ∈ keys → alookup items k = some e →
      ∃ d ∈ lookupAliases items keys vec found, d.word = e.word := by
  intro keys
  induction keys with
  | nil =>
    intro vec found _ k e hk _
    exact absurd hk (List.not_mem_nil k)
  | cons k0 rest ih =>
    intro vec found hinv k e hkmem he
    simp only [lookupAliases]
    split
    · rename_i entry hk0
      split
      · rename_i hfound
        rcases List.mem_cons.mp hkmem with rfl | hkr
        · have hee : entry = e := by
            rw [hk0] at he
            exact Option.some_injective _ he
          subst hee
          obtain ⟨d, hd, hw⟩ := (hinv entry.word).mp hfound
          exact ⟨d, lookupAliases_persist items rest vec found d hd, hw⟩
        · exact ih vec found hinv k e hkr he
      · rename_i hfound
        rcases List.mem_cons.mp hkmem with rfl | hkr
        · have hee : entry = e := by
            rw [hk0] at he
            exact Option.some_injective _ he
          subst hee
          exact ⟨entry, lookupAliases_persist items rest _ _ entry
            (List.mem_append_right _ (List.mem_singleton_self _)), rfl⟩
        · exact ih _ _ (foundInv_extend entry hinv) k e hkr he
    · rename_i hk0
      rcases List.mem_cons.mp hkmem with rfl | hkr
      · rw [he] at hk0
        cases hk0
      · exact ih vec found hinv k e hkr he

theorem lookupAliases_nodup (items : Items) :
    ∀ (keys : List String) (vec : List IdxEntry) (found : List String),
      (∀ w, w ∈ found ↔ ∃ d ∈ vec, d.word = w) →
      (vec.map (fun e => e.word)).Nodup →
      ((lookupAliases items keys vec found).map (fun e => e.word)).Nodup := by
  intro keys
  induction keys with
  | nil => intro vec found _ hnd; exact hnd
  | cons k0 rest ih =>
    intro vec found hinv hnd
    simp only [lookupAliases]
    split
    · rename_i entry _
      split
      · exact ih vec found hinv hnd
      · rename_i hfound
        refine ih _ _ (foundInv_extend entry hinv) ?_
        rw [List.map_append]
        refine List.Nodup.append hnd (by simp) ?_
        intro x hx hx2
        have hxw : x = entry.word := by simpa using hx2
        obtain ⟨d, hd, hdw⟩ := List.mem_map.mp hx
        exact hfound ((hinv entry.word).mpr ⟨d, hd, hdw.trans hxw⟩)
    · exact ih vec found hinv hnd

theorem lookup_blocks_spec (items : Items) (synMap : Syn) (q : String)
    (eDirect eOther : IdxEntry) (kOther : String)
    (hwf : ∀ p ∈ items, p.1 = lowercase p.2.word)
    (hnd : (items.map Prod.fst).Nodup)
    (hq : alookup items (lowercase q) = some eDirect)
    (hsyn : SynMemP synMap (lowercase q) kOther)
    (hko : alookup items kOther = some eOther)
    (hne : lowercase q ≠ kOther) :
    ∃ res, lookup_blocks items (some synMap) q = some res ∧
      eDirect ∈ res ∧ eOther ∈ res ∧
      (res.map (fun e => e.word)).Nodup := by
  obtain ⟨s, hs, hmem⟩ := hsyn
  have hinv1 : ∀ w, w ∈ [eDirect.word] ↔ ∃ d ∈ [eDirect], d.word = w := by
    intro w
    constructor
    · intro hw
      exact ⟨eDirect, List.mem_singleton_self _,
        (List.mem_singleton.mp hw).symm⟩
    · rintro ⟨d, hd, hdw⟩
      rw [List.mem_singleton.mp hd] at hdw
      simp [hdw.symm]
  have hd1 : eDirect ∈ lookupAliases items s [eDirect] [eDirect.word] :=
    lookupAliases_persist items s _ _ _ (List.mem_singleton_self _)
  have hd2 : eOther ∈ lookupAliases items s [eDirect] [eDirect.word] := by
    obtain ⟨d, hd, hdw⟩ :=
      lookupAliases_mem_word items s _ _ hinv1 kOther eOther hmem hko
    rcases lookupAliases_src items s _ _ d hd with h1 | h1
    · exfalso
      rw [List.mem_singleton.mp h1] at hdw
      have h3 : lowercase q = lowercase eDirect.word := hwf _ (alookup_mem hq)
      have h4 : kOther = lowercase eOther.word := hwf _ (alookup_mem hko)
      exact hne (by rw [h3, hdw, ← h4])
    · obtain ⟨k2, hk2⟩ := h1
      have h5 : k2 = lowercase d.word := hwf _ (alookup_mem hk2)
      have h6 : kOther = lowercase eOther.word := hwf _ (alookup_mem hko)
      have hkk : k2 = kOther := by rw [h5, hdw, ← h6]
      subst hkk
      have : d = eOther :=
        mem_unique_by_key hnd (alookup_mem hk2) (alookup_mem hko)
      rw [← this]
      exact hd
  have hnodup :
      ((lookupAliases items s [eDirect] [eDirect.word]).map
        (fun e => e.word)).Nodup :=
    lookupAliases_nodup items s _ _ hinv1 (by simp)
  refine ⟨lookupAliases items s [eDirect] [eDirect.word], ?_, hd1, hd2,
    hnodup⟩
  unfold lookup_blocks
  simp only [hq, hs]
  rw [if_neg (List.ne_nil_of_mem hd1)]

/-! ## C6: synonym symmetry -/

/-- C6: if `a` and `h` are both headwords present in `items` and the
`.syn` file declares alias `a` mapping to the raw-entry index of `h`, then
`lookup(a)` and `lookup(h)` each return both entries — the direct hit and
the synonym — each exactly once (the canonical headwords of the result
carry no duplicates). -/
theorem c6_synonym_symmetric (vec : List IdxRawEntry)
    (records pre post : List (String × Nat)) (a : String) (i : Nat)
    (raw : IdxRawEntry) (eA eH : IdxEntry)
    (hrec : records = pre ++ (a, i) :: post) (ha : a ≠ "")
    (hraw : vec.get? i = some raw)
    (hkA : alookup (buildItems vec) (lowercase a) = some eA)
    (hkH : alookup (buildItems vec) (lowercase raw.word) = some eH)
    (hne : lowercase a ≠ lowercase raw.word) :
    (∃ resA, lookup_blocks (buildItems vec)
        (some (load_syn vec (buildItems vec) records)) a = some resA ∧
      eA ∈ resA ∧ eH ∈ resA ∧ (resA.map (fun e => e.word)).Nodup) ∧
    (∃ resH, lookup_blocks (buildItems vec)
        (some (load_syn vec (buildItems vec) records)) raw.word = some resH ∧
      eH ∈ resH ∧ eA ∈ resH ∧ (resH.map (fun e => e.word)).Nodup) := by
  subst hrec
  have hcont : containsKey (buildItems vec) (lowercase a) = true := by
    unfold containsKey
    rw [hkA]
    rfl
  obtain ⟨hfwd, hback⟩ :=
    load_syn_edges vec (buildItems vec) pre post a i raw ha hraw hcont
  exact ⟨lookup_blocks_spec (buildItems vec) _ a eA eH (lowercase raw.word)
      (buildItems_key vec) (buildItems_nodupKeys vec) hkA hfwd hkH hne,
    lookup_blocks_spec (buildItems vec) _ raw.word eH eA (lowercase a)
      (buildItems_key vec) (buildItems_nodupKeys vec) hkH hback hkA
      (Ne.symm hne)⟩

theorem c6_synonym_symmetric_witness :
    (∃ resA, lookup_blocks (buildItems [⟨"Color", 0, 1⟩, ⟨"Colour", 1, 1⟩])
        (some (load_syn [⟨"Color", 0, 1⟩, ⟨"Colour", 1, 1⟩]
          (buildItems [⟨"Color", 0, 1⟩, ⟨"Colour", 1, 1⟩]) [("Colour", 0)]))
        "Colour" = some resA ∧
      (⟨"Colour", [⟨1, 1⟩]⟩ : IdxEntry) ∈ resA ∧
      (⟨"Color", [⟨0, 1⟩]⟩ : IdxEntry) ∈ resA ∧
      (resA.map (fun e => e.word)).Nodup) ∧
    (∃ resH, lookup_blocks (buildItems [⟨"Color", 0, 1⟩, ⟨"Colour", 1, 1⟩])
        (some (load_syn [⟨"Color", 0, 1⟩, ⟨"Colour", 1, 1⟩]
          (buildItems [⟨"Color", 0, 1⟩, ⟨"Colour", 1, 1⟩]) [("Colour", 0)]))
        "Color" = some resH ∧
      (⟨"Color", [⟨0, 1⟩]⟩ : IdxEntry) ∈ resH ∧
      (⟨"Colour", [⟨1, 1⟩]⟩ : IdxEntry) ∈ resH ∧
      (resH.map (fun e => e.word)).Nodup) :=
  c6_synonym_symmetric [⟨"Color", 0, 1⟩, ⟨"Colour", 1, 1⟩] [("Colour", 0)]
    [] [] "Colour" 0 ⟨"Color", 0, 1⟩ ⟨"Colour", [⟨1, 1⟩]⟩ ⟨"Color", [⟨0, 1⟩]⟩
    rfl (by decide) (by decide) (by decide) (by decide) (by decide)

/-! ## C7: `parse_data` functional behaviour -/

/-- C7: for every block byte sequence and sametypesequence: non-empty
`sts` yields `(sts, text of all the bytes)`; empty `sts` with at least two
bytes yields the first byte as the single type character and the text of
the remainder; empty `sts` with fewer than two bytes yields no segment;
the text is always the lossy UTF-8 decoding with every replacement
character dropped. -/
theorem c7_parse_data_cases (data : List Nat) (sts : String) :
    (sts ≠ "" → parse_data data sts = some (sts, buf_to_string data)) ∧
    (sts = "" → 2 ≤ data.length →
      parse_data data sts =
        some (⟨[Char.ofNat data.headI]⟩, buf_to_string data.tail)) ∧
    (sts = "" → data.length < 2 → parse_data data sts = none) ∧
    (∀ c ∈ (buf_to_string data).data, c ≠ repChar) := by
  refine ⟨fun h => ?_, fun h hlen => ?_, fun h hlen => ?_, fun c hc => ?_⟩
  · simp [parse_data, h]
  · simp [parse_data, h, Nat.not_lt.mpr hlen]
  · simp [parse_data, h, hlen]
  · have : c ∈ (utf8Lossy data).filter (fun c => c ≠ repChar) := hc
    have := List.of_mem_filter this
    simpa using this

theorem c7_parse_data_cases_witness :
    parse_data [255, 65] "m" = some ("m", "A") := by
  have h := (c7_parse_data_cases [255, 65] "m").1 (by decide)
  rw [h]
  decide

/-! ## C3: uncached lookup when every found entry fails to decode -/

/-- C3 counterexample: a dictionary whose single index entry fails to
decode (empty `sametypesequence` and a one-byte block).  The index lookup
finds the entry, decoding fails, and `StarDict::lookup` returns
`some []` — an empty list, not no value. -/
theorem c3_counterexample :
    lookup_blocks [("w", ⟨"w", [⟨0, 1⟩]⟩)] none "w" =
      some [⟨"w", [⟨0, 1⟩]⟩] ∧
    get_definition [65] "" ⟨"w", [⟨0, 1⟩]⟩ = none ∧
    starDictLookup [("w", ⟨"w", [⟨0, 1⟩]⟩)] none [65] "" "w" = some [] ∧
    starDictLookup [("w", ⟨"w", [⟨0, 1⟩]⟩)] none [65] "" "w" ≠ none := by
  decide

/-- C3 (amended): when the index lookup finds entries but every entry
fails to decode, `StarDict::lookup` returns `some` of the **empty list**
(no value is returned only when the index lookup itself finds nothing). -/
theorem c3_all_failed_yields_empty_list (items : Items) (syn : Option Syn)
    (dict : List Nat) (sts : String) (w : String) (es : List IdxEntry)
    (hfind : lookup_blocks items syn w = some es)
    (hfail : ∀ e ∈ es, get_definition dict sts e = none) :
    starDictLookup items syn dict sts w = some [] := by
  unfold starDictLookup
  rw [hfind]
  exact congrArg some (List.filterMap_eq_nil_iff.mpr hfail)

theorem c3_all_failed_yields_empty_list_witness :
    starDictLookup [("w", ⟨"w", [⟨0, 1⟩]⟩)] none [65] "" "w" = some [] :=
  c3_all_failed_yields_empty_list [("w", ⟨"w", [⟨0, 1⟩]⟩)] none [65] "" "w"
    [⟨"w", [⟨0, 1⟩]⟩] (by decide) (by decide)

/-! ## C1 counterexample: cached vs uncached on an undecodable entry -/

/-- C5 counterexample: a `.syn` record whose index points at the raw
entry with the empty headword inserts `""` into the alias's value set,
and `""` is not a key of `items`. -/
theorem c5_counterexample :
    load_syn [⟨"", 0, 0⟩] (buildItems [⟨"", 0, 0⟩]) [("a", 0)] =
      [("a", [""])] ∧
    containsKey (buildItems [⟨"", 0, 0⟩]) "" = false := by
  decide

/-! ## Characterisation of the sqlite cache import -/

theorem option_none_or {α : Type} (o : Option α) : Option.none.or o = o :=
  rfl

theorem option_some_or {α : Type} (a : α) (o : Option α) :
    (some a).or o = some a := rfl

theorem alookup_none_of_not_mem_keys {α : Type} {l : List (String × α)}
    {k : String} (h : k ∉ l.map Prod.fst) : alookup l k = none := by
  cases hv : alookup l k with
  | none => rfl
  | some v =>
    exact absurd (List.mem_map.mpr ⟨(k, v), alookup_mem hv, rfl⟩) h

theorem sqlite_fold_grow (dict : List Nat) (sts : String) :
    ∀ (l : Items) (ws : List (Nat × String × String))
      (sg : List (Nat × WordDefinitionSegment)) (nid : Nat),
      ∃ dw ds nid2,
        l.foldl (sqliteStep dict sts) (ws, sg, nid) =
          (ws ++ dw, sg ++ ds, nid2) ∧ nid ≤ nid2 ∧
        (∀ r ∈ dw, nid ≤ r.1 ∧ r.1 < nid2) ∧ (∀ s0 ∈ ds, nid ≤ s0.1) := by
  intro l
  induction l with
  | nil =>
    intro ws sg nid
    exact ⟨[], [], nid, by simp, le_refl _,
      fun r hr => absurd hr (List.not_mem_nil r),
      fun s0 hs0 => absurd hs0 (List.not_mem_nil s0)⟩
  | cons p rest ih =>
    intro ws sg nid
    rw [List.foldl_cons]
    cases hgd : get_definition dict sts p.2 with
    | none =>
      rw [show sqliteStep dict sts (ws, sg, nid) p = (ws, sg, nid) from by
        simp [sqliteStep, hgd]]
      exact ih ws sg nid
    | some d =>
      rw [show sqliteStep dict sts (ws, sg, nid) p =
          (ws ++ [(nid, lowercase p.1, d.word)],
           sg ++ d.segments.map (fun s => (nid, s)), nid + 1) from by
        simp [sqliteStep, hgd]]
      obtain ⟨dw, ds, nid2, heq, hle, hdw, hds⟩ :=
        ih (ws ++ [(nid, lowercase p.1, d.word)])
          (sg ++ d.segments.map (fun s => (nid, s))) (nid + 1)
      refine ⟨(nid, lowercase p.1, d.word) :: dw,
        d.segments.map (fun s => (nid, s)) ++ ds, nid2, ?_, ?_, ?_, ?_⟩
      · rw [heq]
        simp
      · omega
      · intro r hr
        rcases List.mem_cons.mp hr with h1 | h1
        · rw [h1]
          exact ⟨le_refl _, by omega⟩
        · have := hdw r h1
          omega
      · intro s0 hs0
        rcases List.mem_append.mp hs0 with h1 | h1
        · obtain ⟨seg, _, hseg⟩ := List.mem_map.mp h1
          rw [← hseg]
        · have := hds s0 h1
          omega

theorem sqlite_fold_query (dict : List Nat) (sts : String) :
    ∀ (l : Items) (ws : List (Nat × String × String))
      (sg : List (Nat × WordDefinitionSegment)) (nid : Nat)
      (al : List (String × List String)) (k : String),
      (∀ p ∈ l, lowercase p.1 = p.1) → (l.map Prod.fst).Nodup →
      (∀ r ∈ ws, r.1 < nid) → (∀ s0 ∈ sg, s0.1 < nid) →
      ws.find? (fun r => r.2.1 = k) = none →
      queryDefinition ⟨(l.foldl (sqliteStep dict sts) (ws, sg, nid)).1,
        (l.foldl (sqliteStep dict sts) (ws, sg, nid)).2.1, al⟩ k =
        (alookup l k).bind (fun e => get_definition dict sts e) := by
  intro l
  induction l with
  | nil =>
    intro ws sg nid al k _ _ _ _ hfind
    simp only [List.foldl_nil, queryDefinition, hfind]
    rfl
  | cons p rest ih =>
    intro ws sg nid al k hkl hnd hwsf hsgf hfind
    obtain ⟨kp, e⟩ := p
    have hkp : lowercase kp = kp := hkl (kp, e) (List.mem_cons_self _ _)
    simp only [List.map_cons, List.nodup_cons] at hnd
    rw [List.foldl_cons]
    cases hgd : get_definition dict sts e with
    | none =>
      rw [show sqliteStep dict sts (ws, sg, nid) (kp, e) = (ws, sg, nid) from
        by simp [sqliteStep, hgd]]
      rw [ih ws sg nid al k
        (fun p2 hp2 => hkl p2 (List.mem_cons_of_mem _ hp2)) hnd.2 hwsf hsgf
        hfind]
      rw [alookup_cons]
      by_cases hpk : kp = k
      · rw [if_pos hpk]
        have : alookup rest k = none := by
          apply alookup_none_of_not_mem_keys
          rw [← hpk]
          exact hnd.1
        rw [this]
        simp [hgd]
      · rw [if_neg hpk]
    | some d =>
      rw [show sqliteStep dict sts (ws, sg, nid) (kp, e) =
          (ws ++ [(nid, kp, d.word)],
           sg ++ d.segments.map (fun s => (nid, s)), nid + 1) from by
        simp [sqliteStep, hgd, hkp]]
      by_cases hpk : kp = k
      · -- the row written for this key answers the query
        obtain ⟨dw, ds, nid2, heq, _, hdw, hds⟩ :=
          sqlite_fold_grow dict sts rest (ws ++ [(nid, kp, d.word)])
            (sg ++ d.segments.map (fun s => (nid, s))) (nid + 1)
        rw [heq]
        simp only [queryDefinition]
        rw [List.append_assoc, List.find?_append, hfind, option_none_or,
          List.find?_append]
        rw [show List.find? (fun r => decide (r.2.1 = k)) [(nid, kp, d.word)] =
            some (nid, kp, d.word) from by
          simp [List.find?, hpk]]
        rw [option_some_or]
        dsimp only
        rw [List.filter_append, List.filter_append,
          show List.filter (fun s0 => decide (s0.1 = nid)) sg = [] from
            List.filter_eq_nil_iff.mpr (fun a ha => by
              have := hsgf a ha
              simp only [decide_eq_true_eq]
              omega),
          show List.filter (fun s0 => decide (s0.1 = nid))
              (d.segments.map (fun s => (nid, s))) =
              d.segments.map (fun s => (nid, s)) from
            List.filter_eq_self.mpr (fun a ha => by
              obtain ⟨seg, _, hseg⟩ := List.mem_map.mp ha
              rw [← hseg]
              simp),
          show List.filter (fun s0 => decide (s0.1 = nid)) ds = [] from
            List.filter_eq_nil_iff.mpr (fun a ha => by
              have := hds a ha
              simp only [decide_eq_true_eq]
              omega)]
        rw [alookup_cons, if_pos hpk]
        simp [hgd, List.map_map, Function.comp]
      · rw [ih (ws ++ [(nid, kp, d.word)])
          (sg ++ d.segments.map (fun s => (nid, s))) (nid + 1) al k
          (fun p2 hp2 => hkl p2 (List.mem_cons_of_mem _ hp2)) hnd.2
          ?_ ?_ ?_]
        · rw [alookup_cons, if_neg hpk]
        · intro r hr
          rcases List.mem_append.mp hr with h1 | h1
          · have := hwsf r h1
            omega
          · rw [List.mem_singleton.mp h1]
            omega
        · intro s0 hs0
          rcases List.mem_append.mp hs0 with h1 | h1
          · have := hsgf s0 h1
            omega
          · obtain ⟨seg, _, hseg⟩ := List.mem_map.mp h1
            rw [← hseg]
            omega
        · rw [List.find?_append, hfind, Option.none_or]
          simp [List.find?, hpk]

theorem queryDefinition_import (items : Items) (synO : Option Syn)
    (dict : List Nat) (sts : String)
    (hkl : ∀ p ∈ items, lowercase p.1 = p.1)
    (hnd : (items.map Prod.fst).Nodup) (k : String) :
    queryDefinition (importCacheSqlite items synO dict sts) k =
      (alookup items k).bind (fun e => get_definition dict sts e) := by
  unfold importCacheSqlite
  exact sqlite_fold_query dict sts items [] [] 1 _ k hkl hnd
    (fun r hr => absurd hr (List.not_mem_nil r))
    (fun s0 hs0 => absurd hs0 (List.not_mem_nil s0)) rfl

/-! ## C4: cache population on undecodable entries -/

/-- C4 counterexample: a dictionary whose single index entry fails to
decode.  The record-per-key (sled) population **aborts** with
`InvalidIdxBlock` instead of skipping the entry, while the relational
(sqlite) population skips it and finishes. -/
theorem c4_counterexample :
    importCacheSled [("w", ⟨"w", [⟨0, 1⟩]⟩)] [] [65] "" =
      .error (.invalidIdxBlock "w") ∧
    importCacheSqlite [("w", ⟨"w", [⟨0, 1⟩]⟩)] none [65] "" =
      ⟨[], [], []⟩ := by
  decide

/-- C4 (amended): the relational (sqlite) population skips every index
entry whose blocks fail to decode and imports the rest; the record-per-key
(sled) population instead **aborts** with `InvalidIdxBlock` as soon as any
entry fails to decode (and succeeds when none does). -/
theorem c4_import_skip_vs_abort (items : Items) (synO : Option Syn)
    (synS : Syn) (dict : List Nat) (sts : String)
    (hkl : ∀ p ∈ items, lowercase p.1 = p.1)
    (hnd : (items.map Prod.fst).Nodup) :
    ((∀ p ∈ items, get_definition dict sts p.2 ≠ none) →
      ∃ db, importCacheSled items synS dict sts = .ok db) ∧
    ((∃ p ∈ items, get_definition dict sts p.2 = none) →
      ∃ w, importCacheSled items synS dict sts = .error (.invalidIdxBlock w)) ∧
    (∀ p ∈ items, get_definition dict sts p.2 = none →
      queryDefinition (importCacheSqlite items synO dict sts) p.1 = none) ∧
    (∀ p ∈ items, ∀ d, get_definition dict sts p.2 = some d →
      queryDefinition (importCacheSqlite items synO dict sts) p.1 = some d) := by
  have hsledOk : ∀ (l : Items) (db : List (String × List String)),
      (∀ p ∈ l, get_definition dict sts p.2 ≠ none) →
      ∃ db2, importSledItems dict sts l db = .ok db2 := by
    intro l
    induction l with
    | nil => intro db _; exact ⟨db, rfl⟩
    | cons p rest ih =>
      intro db hdec
      obtain ⟨kp, e⟩ := p
      cases hgd : get_definition dict sts e with
      | none => exact absurd hgd (hdec (kp, e) (List.mem_cons_self _ _))
      | some d =>
        simp only [importSledItems, hgd]
        exact ih _ (fun p2 hp2 => hdec p2 (List.mem_cons_of_mem _ hp2))
  have hsledErr : ∀ (l : Items) (db : List (String × List String)),
      (∃ p ∈ l, get_definition dict sts p.2 = none) →
      ∃ w, importSledItems dict sts l db = .error (.invalidIdxBlock w) := by
    intro l
    induction l with
    | nil =>
      intro db h
      obtain ⟨p, hp, _⟩ := h
      exact absurd hp (List.not_mem_nil p)
    | cons p rest ih =>
      intro db h
      obtain ⟨kp, e⟩ := p
      cases hgd : get_definition dict sts e with
      | none =>
        exact ⟨kp, by simp [importSledItems, hgd]⟩
      | some d =>
        simp only [importSledItems, hgd]
        apply ih
        obtain ⟨p2, hp2, hp2d⟩ := h
        rcases List.mem_cons.mp hp2 with h1 | h1
        · rw [h1] at hp2d
          simp only at hp2d
          rw [hp2d] at hgd
          cases hgd
        · exact ⟨p2, h1, hp2d⟩
  refine ⟨?_, ?_, ?_, ?_⟩
  · intro hdec
    obtain ⟨db2, hdb⟩ := hsledOk items [] hdec
    exact ⟨_, by unfold importCacheSled; rw [hdb]⟩
  · intro hex
    obtain ⟨w, hw⟩ := hsledErr items [] hex
    exact ⟨w, by unfold importCacheSled; rw [hw]⟩
  · intro p hp hgd
    rw [queryDefinition_import items synO dict sts hkl hnd p.1]
    rw [alookup_of_mem_nodup hnd (show (p.1, p.2) ∈ items from hp)]
    simp [hgd]
  · intro p hp d hgd
    rw [queryDefinition_import items synO dict sts hkl hnd p.1]
    rw [alookup_of_mem_nodup hnd (show (p.1, p.2) ∈ items from hp)]
    simp [hgd]

theorem c4_import_skip_vs_abort_witness :
    ((∀ p ∈ [(("a" : String), (⟨"a", [⟨0, 9⟩]⟩ : IdxEntry))],
        get_definition [65] "m" p.2 ≠ none) →
      ∃ db, importCacheSled [("a", ⟨"a", [⟨0, 9⟩]⟩)] [] [65] "m" = .ok db) ∧
    ((∃ p ∈ [(("a" : String), (⟨"a", [⟨0, 9⟩]⟩ : IdxEntry))],
        get_definition [65] "m" p.2 = none) →
      ∃ w, importCacheSled [("a", ⟨"a", [⟨0, 9⟩]⟩)] [] [65] "m" =
        .error (.invalidIdxBlock w)) ∧
    (∀ p ∈ [(("a" : String), (⟨"a", [⟨0, 9⟩]⟩ : IdxEntry))],
      get_definition [65] "m" p.2 = none →
      queryDefinition (importCacheSqlite [("a", ⟨"a", [⟨0, 9⟩]⟩)] none [65]
        "m") p.1 = none) ∧
    (∀ p ∈ [(("a" : String), (⟨"a", [⟨0, 9⟩]⟩ : IdxEntry))],
      ∀ d, get_definition [65] "m" p.2 = some d →
      queryDefinition (importCacheSqlite [("a", ⟨"a", [⟨0, 9⟩]⟩)] none [65]
        "m") p.1 = some d) :=
  c4_import_skip_vs_abort [("a", ⟨"a", [⟨0, 9⟩]⟩)] none [] [65] "m"
    (by decide) (by decide)

/-! ## C1: cached lookup refines the uncached lookup -/

/-- C9: the `.syn` bytes `61 00 00 05` hold a NUL-terminated alias `"a"`
followed by only two of the four index bytes.  `reader.read(&mut b)`
returns `Ok(2)` at EOF — not `Err` — so the record parses as index
`0x00050000` with the missing bytes zero-padded, the parse finishes
without `InvalidSynIndex`, and the out-of-range index is silently
dropped. -/
theorem c9_truncated_syn_not_error :
    parseSynRecords [97, 0, 0, 5] = [("a", 327680)] ∧
    load_syn [⟨"b", 0, 1⟩] (buildItems [⟨"b", 0, 1⟩])
      (parseSynRecords [97, 0, 0, 5]) = [] := by
  decide

/-! ## Chunk-arithmetic lemmas for the dictzip reader -/

theorem flatten_full_length (CL : Nat) :
    ∀ (l : List (List Nat)), (∀ c ∈ l, c.length = CL) →
      l.flatten.length = l.length * CL := by
  intro l
  induction l with
  | nil => intro _; simp
  | cons c rest ih =>
    intro h
    simp only [List.flatten_cons, List.length_append, List.length_cons]
    rw [h c (List.mem_cons_self _ _),
      ih (fun c2 hc2 => h c2 (List.mem_cons_of_mem _ hc2))]
    ring

theorem drop_append_long {α : Type} (l1 l2 : List α) (m : Nat)
    (h : l1.length ≤ m) : (l1 ++ l2).drop m = l2.drop (m - l1.length) := by
  conv_lhs => rw [show m = l1.length + (m - l1.length) from by omega]
  exact List.drop_append _

/-- The buffer concatenated by the `get_text` chunk loop is long enough
for the requested slice. -/
theorem chunk_buf_len_bound (CL : Nat) (body : List (List Nat))
    (lastC : List Nat) (offset size L : Nat) (hCL : 0 < CL)
    (hb : ∀ c ∈ body, c.length = CL) (hl : lastC.length ≤ CL)
    (hFL : offset / CL ≤ L + 1) (hLn : L < body.length + 1)
    (hA : offset + size ≤ (L + 1) * CL)
    (hB : offset + size ≤ (body ++ [lastC]).flatten.length) :
    (offset - (offset / CL) * CL) + size ≤
      (((body ++ [lastC]).drop (offset / CL)).take
        (L + 1 - offset / CL)).flatten.length := by
  have h7 : (offset / CL) * CL ≤ offset := Nat.div_mul_le_self offset CL
  by_cases hLbl : L < body.length
  · have h2 : (((body ++ [lastC]).drop (offset / CL)).take
        (L + 1 - offset / CL)) = ((body ++ [lastC]).take (L + 1)).drop
        (offset / CL) := (List.drop_take _ _ _).symm
    rw [h2, List.take_append_of_le_length (by omega : L + 1 ≤ body.length)]
    rw [flatten_full_length CL _ (fun c hc =>
      hb c (List.mem_of_mem_take (List.mem_of_mem_drop hc)))]
    rw [List.length_drop, List.length_take, Nat.min_eq_left (by omega)]
    have h5 : (L + 1 - offset / CL) * CL = (L + 1) * CL - (offset / CL) * CL :=
      Nat.sub_mul _ _ _
    have h6 : (offset / CL) * CL ≤ (L + 1) * CL := Nat.mul_le_mul_right CL hFL
    omega
  · by_cases hFbl : offset / CL ≤ body.length
    · have htake : (((body ++ [lastC]).drop (offset / CL)).take
          (L + 1 - offset / CL)) = (body ++ [lastC]).drop (offset / CL) := by
        apply List.take_of_length_le
        rw [List.length_drop, List.length_append, List.length_cons,
          List.length_nil]
        omega
      rw [htake]
      have hsplit : (body ++ [lastC]).flatten.length =
          ((body ++ [lastC]).take (offset / CL)).flatten.length +
          ((body ++ [lastC]).drop (offset / CL)).flatten.length := by
        conv_lhs => rw [← List.take_append_drop (offset / CL) (body ++ [lastC])]
        rw [List.flatten_append, List.length_append]
      have htakeF : ((body ++ [lastC]).take (offset / CL)).flatten.length =
          (offset / CL) * CL := by
        rw [List.take_append_of_le_length hFbl]
        rw [flatten_full_length CL _ (fun c hc =>
          hb c (List.mem_of_mem_take hc))]
        rw [List.length_take, Nat.min_eq_left hFbl]
      omega
    · have hFeq : offset / CL = body.length + 1 := by omega
      have hdrop : ((body ++ [lastC]).drop (offset / CL)) = [] := by
        apply List.drop_eq_nil_of_le
        rw [List.length_append, List.length_cons, List.length_nil]
        omega
      rw [hdrop]
      simp only [List.take_nil, List.flatten_nil, List.length_nil]
      have h6 : (L + 1) * CL ≤ (offset / CL) * CL := by
        apply Nat.mul_le_mul_right
        omega
      omega

/-- The logical concatenation of chunks `first..=last` sliced at
`offset - first * chunk_length` equals the slice of the full stream. -/
theorem chunk_slice_eq (CL : Nat) (body : List (List Nat)) (lastC : List Nat)
    (offset size L : Nat) (hCL : 0 < CL)
    (hb : ∀ c ∈ body, c.length = CL)
    (hFbl : offset / CL ≤ body.length)
    (hbuf : (offset - (offset / CL) * CL) + size ≤
      (((body ++ [lastC]).drop (offset / CL)).take
        (L + 1 - offset / CL)).flatten.length) :
    ((((body ++ [lastC]).drop (offset / CL)).take
        (L + 1 - offset / CL)).flatten.drop
      (offset - (offset / CL) * CL)).take size =
      ((body ++ [lastC]).flatten.drop offset).take size := by
  have h7 : (offset / CL) * CL ≤ offset := Nat.div_mul_le_self offset CL
  have htakeF : ((body ++ [lastC]).take (offset / CL)).flatten.length =
      (offset / CL) * CL := by
    rw [List.take_append_of_le_length hFbl]
    rw [flatten_full_length CL _ (fun c hc => hb c (List.mem_of_mem_take hc))]
    rw [List.length_take, Nat.min_eq_left hFbl]
  conv_rhs =>
    rw [← List.take_append_drop (offset / CL) (body ++ [lastC]),
      List.flatten_append,
      drop_append_long _ _ offset (by rw [htakeF]; exact h7), htakeF]
  conv_rhs =>
    rw [← List.take_append_drop (L + 1 - offset / CL)
        ((body ++ [lastC]).drop (offset / CL)),
      List.flatten_append,
      List.drop_append_of_le_length (by omega),
      List.take_append_of_le_length (by rw [List.length_drop]; omega)]

/-! ## C10 counterexample: a size-zero dictzip range request -/

/-- C10 counterexample: with `chunk_length = 2`, two full chunks, and the
request `(offset, size) = (2, 0)`, `offset + size - 1` does not underflow
(offset is positive); the chunk loop is empty and the call returns the
empty text — a value — rather than panicking. -/
theorem c10_counterexample :
    get_text 2 [[97, 98], [99, 100]] 2 0 = .text "" := by
  decide

/-- C10 (amended): for a size-zero range request, the `offset + size - 1`
subtraction underflows only at `offset = 0`, where the wrapped value fails
the chunk-range check and no value is returned (release semantics; a debug
build would abort on the underflow).  For `offset ≥ 1` inside the stream
no underflow occurs and the call returns no value or the **empty text** —
it does return a value, so callers need `size ≥ 1` only to avoid the
`offset = 0` underflow. -/
theorem c10_size_zero_no_panic (CL : Nat) (body : List (List Nat))
    (lastC : List Nat) (offset : Nat) (hCL : 0 < CL)
    (hb : ∀ c ∈ body, c.length = CL) (hl : lastC.length ≤ CL)
    (hcap : (body ++ [lastC]).length * CL < USIZE)
    (hoff : offset < USIZE)
    (hofft : offset ≤ (body ++ [lastC]).flatten.length) :
    (offset = 0 → get_text CL (body ++ [lastC]) 0 0 = .noValue) ∧
    (1 ≤ offset →
      get_text CL (body ++ [lastC]) offset 0 = .noValue ∨
      get_text CL (body ++ [lastC]) offset 0 = .text "") := by
  have hU : 0 < USIZE := by decide
  have hn : (body ++ [lastC]).length = body.length + 1 := by simp
  constructor
  · intro _
    unfold get_text
    rw [if_neg (by omega : ¬ CL = 0)]
    dsimp only
    simp only [Nat.zero_div, Nat.zero_add]
    rw [if_neg (by omega : ¬ 0 > (body ++ [lastC]).length)]
    rw [Nat.mod_eq_of_lt (by omega : USIZE - 1 < USIZE)]
    rw [if_pos ?_]
    show (body ++ [lastC]).length ≤ (USIZE - 1) / CL
    rw [Nat.le_div_iff_mul_le hCL]
    omega
  · intro ho1
    have hlast0 : (offset + 0 + (USIZE - 1)) % USIZE = offset - 1 := by
      rw [show offset + 0 + (USIZE - 1) = (offset - 1) + USIZE from by omega,
        Nat.add_mod_right]
      exact Nat.mod_eq_of_lt (by omega)
    unfold get_text
    rw [if_neg (by omega : ¬ CL = 0)]
    dsimp only
    by_cases hgt : offset / CL > (body ++ [lastC]).length
    · left
      rw [if_pos hgt]
    · rw [if_neg hgt, hlast0]
      by_cases hge : (offset - 1) / CL ≥ (body ++ [lastC]).length
      · left
        rw [if_pos hge]
      · rw [if_neg hge]
        right
        have hL_lt : (offset - 1) / CL < body.length + 1 := by
          rw [hn] at hge
          omega
        have hFL : offset / CL ≤ (offset - 1) / CL + 1 := by
          have h2 : offset / CL ≤ (offset - 1 + CL) / CL :=
            Nat.div_le_div_right (by omega)
          rw [Nat.add_div_right _ hCL] at h2
          exact h2
        have hA : offset + 0 ≤ ((offset - 1) / CL + 1) * CL := by
          have h3 : offset - 1 < ((offset - 1) / CL + 1) * CL := by
            have h4 := (Nat.div_lt_iff_lt_mul hCL).mp
              (Nat.lt_succ_self ((offset - 1) / CL))
            simpa [Nat.succ_eq_add_one] using h4
          omega
        have hbuf := chunk_buf_len_bound CL body lastC offset 0
          ((offset - 1) / CL) hCL hb hl hFL hL_lt hA (by omega)
        rw [if_neg (by omega)]
        rw [List.take_zero]
        rfl

theorem c10_size_zero_no_panic_witness :
    ((1 : Nat) = 0 → get_text 2 ([[97, 98]] ++ [[99]]) 0 0 = .noValue) ∧
    (1 ≤ (1 : Nat) →
      get_text 2 ([[97, 98]] ++ [[99]]) 1 0 = .noValue ∨
      get_text 2 ([[97, 98]] ++ [[99]]) 1 0 = .text "") :=
  c10_size_zero_no_panic 2 [[97, 98]] [99] 1 (by decide) (by decide)
    (by decide) (by decide) (by decide) (by decide)

/-! ## C2: dictzip range reads equal slices of the full stream -/

/-- C2: for every request `(offset, size)` with `size ≥ 1` lying entirely
inside the chunked stream (full-length chunks followed by a final chunk of
at most `chunk_length` bytes), `get_text` returns exactly the text of the
slice `[offset, offset + size)` of the concatenation of all inflated
chunks in order. -/
theorem c2_get_text_slice (CL : Nat) (body : List (List Nat))
    (lastC : List Nat) (offset size : Nat) (hCL : 0 < CL)
    (hb : ∀ c ∈ body, c.length = CL) (hl : lastC.length ≤ CL)
    (hsz : 1 ≤ size)
    (hrange : offset + size ≤ (body ++ [lastC]).flatten.length)
    (hbound : offset + size ≤ USIZE) :
    get_text CL (body ++ [lastC]) offset size =
      .text (buf_to_string
        (((body ++ [lastC]).flatten.drop offset).take size)) := by
  have hU : 0 < USIZE := by decide
  have hn : (body ++ [lastC]).length = body.length + 1 := by simp
  have htot : (body ++ [lastC]).flatten.length =
      body.length * CL + lastC.length := by
    rw [List.flatten_append, List.length_append, flatten_full_length CL body hb]
    simp
  have hlast_val : (offset + size + (USIZE - 1)) % USIZE = offset + size - 1 := by
    rw [show offset + size + (USIZE - 1) = (offset + size - 1) + USIZE from by
      omega, Nat.add_mod_right]
    exact Nat.mod_eq_of_lt (by omega)
  have hL_lt : (offset + size - 1) / CL < body.length + 1 := by
    rw [Nat.div_lt_iff_lt_mul hCL]
    have h2 : (body.length + 1) * CL = body.length * CL + CL := by ring
    omega
  have hFL : offset / CL ≤ (offset + size - 1) / CL :=
    Nat.div_le_div_right (by omega)
  have hF_lt : offset / CL < body.length + 1 := lt_of_le_of_lt hFL hL_lt
  have hA : offset + size ≤ ((offset + size - 1) / CL + 1) * CL := by
    have h3 : offset + size - 1 < ((offset + size - 1) / CL + 1) * CL := by
      have h4 := (Nat.div_lt_iff_lt_mul hCL).mp
        (Nat.lt_succ_self ((offset + size - 1) / CL))
      simpa [Nat.succ_eq_add_one] using h4
    omega
  have hbuf := chunk_buf_len_bound CL body lastC offset size
    ((offset + size - 1) / CL) hCL hb hl (by omega) hL_lt hA hrange
  have hslice := chunk_slice_eq CL body lastC offset size
    ((offset + size - 1) / CL) hCL hb (by omega) hbuf
  unfold get_text
  rw [if_neg (by omega : ¬ CL = 0)]
  dsimp only
  rw [if_neg (by rw [hn]; omega : ¬ offset / CL > (body ++ [lastC]).length)]
  rw [hlast_val]
  rw [if_neg (by rw [hn]; omega :
    ¬ (offset + size - 1) / CL ≥ (body ++ [lastC]).length)]
  rw [if_neg (by omega)]
  rw [hslice]

theorem c2_get_text_slice_witness :
    get_text 2 [[97, 98], [99, 100], [101]] 1 3 = .text "bcd" := by
  have h := c2_get_text_slice 2 [[97, 98], [99, 100]] [101] 1 3 (by decide)
    (by decide) (by decide) (by decide) (by decide) (by decide)
  exact h.trans (by decide)

/-! ## C8 counterexample: the wrapped sub-field length check -/

/-- C8 counterexample: extra field `04 00`, RA id, `sub_len = 0`,
version 1, `chunk_length = 1`, `chunk_count = 65533`.  In ℤ,
`sub_len − 6 = −6 ≠ 2 × 65533`, but in the wrapping u16 arithmetic of the
code both sides are `65530`, so the validation passes and the parse then
dies reading chunk sizes past EOF — an I/O error, not
`FailedParseDictHeader`. -/
theorem c8_counterexample :
    read_chunks [4, 0, 0x52, 0x41, 0, 0, 1, 0, 1, 0, 0xFD, 0xFF] =
      .error .failedReadHeader ∧
    (0 : Int) - 6 ≠ 2 * 65533 ∧
    ∀ s, (Except.error Error.failedReadHeader :
        Except Error (List Nat × Nat × List Nat)) ≠
      Except.error (Error.failedParseDictHeader s) := by
  refine ⟨by decide, by decide, fun s h => ?_⟩
  injection h with h2
  cases h2

/-! ## C8 (amended): the sub-field length check in wrapping u16 arithmetic -/

theorem brU16_u16le (n : Nat) (rest : List Nat) (h : n < 65536) :
    brU16 (u16le n ++ rest) = some (n, rest) := by
  show some (n % 256 % 256 + 256 * (n / 256 % 256 % 256), rest) = some (n, rest)
  have h1 : n % 256 % 256 + 256 * (n / 256 % 256 % 256) = n := by omega
  rw [h1]

theorem readChunkSizes_ok :
    ∀ (cc : Nat) (r : List Nat) (raRead : Nat), 2 * cc ≤ r.length →
      ∃ r2 raRead2 vs, readChunkSizes cc r raRead = .ok (r2, raRead2, vs) ∧
        vs.length = cc := by
  intro cc
  induction cc with
  | zero => intro r raRead _; exact ⟨r, raRead, [], rfl, rfl⟩
  | succ n ih =>
    intro r raRead hlen
    match r with
    | [] => simp at hlen
    | [a] => simp at hlen; omega
    | a :: b :: r2 =>
      simp only [readChunkSizes, brU16]
      obtain ⟨r3, ra3, vs, hrec, hlen3⟩ :=
        ih r2 ((raRead + 2) % 65536) (by
          simp only [List.length_cons] at hlen
          omega)
      rw [hrec]
      exact ⟨r3, ra3, (a % 256 + 256 * (b % 256)) :: vs, rfl, by
        simp [hlen3]⟩

/-- C8 (amended): the validation `ra_size - ra_read == chunk_count * 2` is
performed in **wrapping u16 arithmetic**: parsing fails with
`FailedParseDictHeader` exactly when `(sub_len − 6)` and `2 × chunk_count`
differ modulo `2 ^ 16`, and otherwise reads exactly `chunk_count`
compressed-size values (given enough bytes).  For `sub_len ≥ 6` and
`chunk_count ≤ 32764` the wrapped comparison coincides with the exact one
stated in the claim. -/
theorem c8_subfield_check_wrapped (extraLen raSize chunkLen cc : Nat)
    (rest : List Nat) (bs : List Nat)
    (hbs : bs = u16le extraLen ++ 0x52 :: 0x41 ::
      (u16le raSize ++ (u16le 1 ++ (u16le chunkLen ++ (u16le cc ++ rest)))))
    (hel : 3 ≤ extraLen) (hel2 : extraLen < 65536) (hrs : raSize < 65536)
    (hcl : chunkLen < 65536) (hcc : cc < 65536) :
    ((raSize + 65536 - 6) % 65536 ≠ (cc * 2) % 65536 →
      read_chunks bs = .error (.failedParseDictHeader
        "Subfield size remaining too small for chunk count")) ∧
    ((raSize + 65536 - 6) % 65536 = (cc * 2) % 65536 → 2 * cc ≤ rest.length →
      ∃ r2 chunksOut, read_chunks bs = .ok (r2, chunkLen, chunksOut) ∧
        chunksOut.length = cc) := by
  subst hbs
  have hscan : ∀ (tail : List Nat),
      scanRA ((0x52 :: 0x41 :: tail).length + 1) (0x52 :: 0x41 :: tail)
        extraLen 0 = .ok (tail, 2) := by
    intro tail
    simp only [scanRA]
    rw [if_pos (by omega : (0 : Nat) < extraLen)]
    rw [show brU16 (0x52 :: 0x41 :: tail) = some (16722, tail) from rfl]
    norm_num
  unfold read_chunks
  rw [brU16_u16le extraLen _ hel2]
  dsimp only
  rw [hscan]
  dsimp only
  rw [if_neg (show ¬ (extraLen + 65536 - 2) % 65536 = 0 by omega)]
  rw [brU16_u16le raSize _ hrs]
  dsimp only
  rw [brU16_u16le 1 _ (by omega)]
  dsimp only
  rw [if_neg (show ¬ (1 : Nat) ≠ 1 by simp)]
  rw [brU16_u16le chunkLen _ hcl]
  dsimp only
  rw [brU16_u16le cc _ hcc]
  dsimp only
  constructor
  · intro hne
    rw [if_pos hne]
  · intro heq hlen
    rw [if_neg (not_not_intro heq)]
    obtain ⟨r7, raR, vs, hreads, hlenvs⟩ := readChunkSizes_ok cc rest 6 hlen
    rw [hreads]
    dsimp only
    split
    · exact ⟨_, vs, rfl, hlenvs⟩
    · exact ⟨_, vs, rfl, hlenvs⟩

theorem c8_subfield_check_wrapped_witness :
    ∃ r2 chunksOut,
      read_chunks (u16le 8 ++ 0x52 :: 0x41 ::
        (u16le 12 ++ (u16le 1 ++ (u16le 64 ++ (u16le 3 ++
          [10, 0, 20, 0, 30, 0]))))) = .ok (r2, 64, chunksOut) ∧
      chunksOut.length = 3 :=
  (c8_subfield_check_wrapped 8 12 64 3 [10, 0, 20, 0, 30, 0] _ rfl
    (by decide) (by decide) (by decide) (by decide) (by decide)).2
    (by decide) (by decide)

end StarDictV
